import Mathlib

/-!
Shallow embedding of the `liq.core` value layer (symbols, quotes, positions,
fills, orders, bars, portfolio state, ledger entries, result records) and
proofs about its validation rules and derived analytics.

Python strings are modelled as lists of character codes (`Str := List Nat`);
Python `Decimal` as `ℚ`; fallible construction (`pydantic` validators /
`__post_init__` checks raising `ValueError`) as `Option`-returning smart
constructors; Python `datetime` as an epoch value together with its optional
UTC offset (`none` models a naive timestamp).
-/

set_option autoImplicit false

namespace LiqCore

/-- Python strings as lists of Unicode code points. -/
abbrev Str := List Nat

/-- Code points of a Lean string literal, for readable concrete inputs. -/
def strCodes (s : String) : Str := s.data.map Char.toNat

/-- ASCII whitespace, as recognised by Python `str.strip()`. -/
def isSpaceCode (c : Nat) : Bool :=
  c = 32 || c = 9 || c = 10 || c = 13 || c = 11 || c = 12

/-- `str.lstrip()`. -/
def lstrip (s : Str) : Str := s.dropWhile isSpaceCode

/-- `str.rstrip()`. -/
def rstrip (s : Str) : Str := (s.reverse.dropWhile isSpaceCode).reverse

/-- `str.strip()`. -/
def strip (s : Str) : Str := rstrip (lstrip s)

/-- `str.upper()` on a single code point (ASCII case mapping). -/
def upperCode (c : Nat) : Nat := if 97 ≤ c && c ≤ 122 then c - 32 else c

/-- `str.upper()`. -/
def upper (s : Str) : Str := s.map upperCode

/-- `symbol.split(":")[-1]`: the segment after the last colon (code 58). -/
def afterColon (s : Str) : Str := (s.reverse.takeWhile (fun c => c ≠ 58)).reverse

/-- `liq.core.enums.AssetClass`. -/
inductive AssetClass where
  | forex
  | crypto
  | equity
  | future
  | option
deriving DecidableEq, Repr

/-- `liq.core.enums.OrderSide`. -/
inductive OrderSide where
  | buy
  | sell
deriving DecidableEq, Repr

/-- `liq.core.enums.OrderType`. -/
inductive OrderType where
  | market
  | limit
  | stop
  | stop_limit
deriving DecidableEq, Repr

/-- `liq.core.enums.TimeInForce`. -/
inductive TimeInForce where
  | day
  | gtc
  | ioc
  | fok
deriving DecidableEq, Repr

/-- `liq.core.enums.Currency`. -/
inductive Currency where
  | usd
  | eur
  | gbp
  | jpy
  | btc
  | eth
  | usdt
deriving DecidableEq, Repr

/-- `liq.core.symbols._CRYPTO_QUOTES` (ordered, longest first). -/
def cryptoQuotes : List Str :=
  [strCodes "USDT", strCodes "USDC", strCodes "BUSD", strCodes "USD",
   strCodes "BTC", strCodes "ETH", strCodes "EUR", strCodes "GBP"]

/-- The quote-suffix loop of `_normalize_crypto`: first quote currency in the
list that is a proper suffix of `symbol` (non-empty base) yields the split
`base ++ "-" ++ quote`; otherwise the search continues. -/
def cryptoSplit (symbol : Str) : List Str → Option Str
  | [] => none
  | q :: rest =>
    if q.isSuffixOf symbol then
      let base := symbol.take (symbol.length - q.length)
      if base ≠ [] then some (base ++ [45] ++ q) else cryptoSplit symbol rest
    else cryptoSplit symbol rest

/-- `symbol.replace("/", "_").replace("-", "_")` (45 = '-', 47 = '/',
95 = '_'). -/
def underscored (symbol : Str) : Str :=
  symbol.map (fun c => if c = 47 || c = 45 then 95 else c)

/-- `liq.core.symbols._normalize_forex` (95 = '_'). -/
def normalizeForex (symbol : Str) : Str :=
  let symbol := underscored symbol
  if (!symbol.contains 95) && symbol.length == 6 then
    symbol.take 3 ++ [95] ++ symbol.drop 3
  else symbol

/-- `symbol.replace("_", "-")` (45 = '-', 95 = '_'). -/
def dashified (symbol : Str) : Str :=
  symbol.map (fun c => if c = 95 then 45 else c)

/-- `liq.core.symbols._normalize_crypto` (45 = '-', 95 = '_'). -/
def normalizeCrypto (symbol : Str) : Str :=
  let symbol := dashified symbol
  if symbol.contains 45 then symbol
  else
    match cryptoSplit symbol cryptoQuotes with
    | some r => r
    | none =>
      if 6 ≤ symbol.length then symbol.take 3 ++ [45] ++ symbol.drop 3
      else symbol

/-- The shared first two steps of `normalize_symbol`: trim and uppercase,
then strip an exchange tag ending in a colon (58 = ':'). -/
def preprocessSymbol (symbol : Str) : Str :=
  let symbol := upper (strip symbol)
  if symbol.contains 58 then afterColon symbol else symbol

/-- `liq.core.symbols.normalize_symbol`. -/
def normalize_symbol (symbol : Str) (asset_class : AssetClass) : Str :=
  let symbol := preprocessSymbol symbol
  match asset_class with
  | AssetClass.forex => normalizeForex symbol
  | AssetClass.crypto => normalizeCrypto symbol
  | _ => symbol

/-- `[A-Z0-9]` on a code point. -/
def isUpperAlnum (c : Nat) : Bool := (65 ≤ c && c ≤ 90) || (48 ≤ c && c ≤ 57)

/-- `[A-Z0-9_-]` on a code point. -/
def isMidChar (c : Nat) : Bool := isUpperAlnum c || c = 95 || c = 45

/-- The regex `^[A-Z0-9][A-Z0-9_-]\x7b0,18\x7d[A-Z0-9]$|^[A-Z0-9]\x7b2\x7d$`
(`_VALID_SYMBOL_PATTERN`); the two-character alternative is subsumed by the
first branch with an empty middle. -/
def matchValidSymbol (s : Str) : Bool :=
  match s with
  | [] => false
  | [_] => false
  | c :: rest =>
    isUpperAlnum c && isUpperAlnum (rest.getLastD 0) &&
      (rest.dropLast.length ≤ 18 && rest.dropLast.all isMidChar)

/-- `liq.core.symbols.validate_symbol`. -/
def validate_symbol (symbol : Str) : Bool :=
  if symbol = [] then false
  else if symbol.length < 2 || 20 < symbol.length then false
  else matchValidSymbol symbol

/-- Python `datetime`: an instant plus its `utcoffset()` in seconds; `none`
models a naive timestamp (no `tzinfo`, or a `tzinfo` without an offset). -/
structure DateTime where
  epoch : Int
  utcoffset : Option Int
deriving DecidableEq, Repr

/-- `Quote.validate_timestamp_timezone`: any timezone-aware timestamp. -/
def quoteTimestampOk (v : DateTime) : Bool := v.utcoffset.isSome

/-- `Position.validate_timestamp_timezone`: any timezone-aware timestamp. -/
def positionTimestampOk (v : DateTime) : Bool := v.utcoffset.isSome

/-- `Fill.validate_timestamp_timezone`: any timezone-aware timestamp. -/
def fillTimestampOk (v : DateTime) : Bool := v.utcoffset.isSome

/-- `OrderRequest.validate_timestamp_timezone`: any timezone-aware timestamp. -/
def orderTimestampOk (v : DateTime) : Bool := v.utcoffset.isSome

/-- `Bar.validate_timestamp_timezone`: timezone-aware and additionally the
offset must equal the UTC offset (zero). -/
def barTimestampOk (v : DateTime) : Bool :=
  v.utcoffset.isSome && v.utcoffset == some 0

/-- `PortfolioState.validate_timestamp_timezone`. -/
def portfolioTimestampOk (v : DateTime) : Bool := v.utcoffset.isSome

/-- `LedgerEntry.validate_timestamp_timezone`. -/
def ledgerTimestampOk (v : DateTime) : Bool := v.utcoffset.isSome

/-- `validate_symbol_format`, shared by the model classes: store the trimmed,
uppercased symbol when it is canonical. -/
def normalizeSymbolField (v : Str) : Option Str :=
  let normalized := upper (strip v)
  if validate_symbol normalized then some normalized else none

/-- `liq.core.quote.Quote` (field set). -/
structure Quote where
  symbol : Str
  timestamp : DateTime
  bid : ℚ
  ask : ℚ
  bid_size : ℚ
  ask_size : ℚ
deriving DecidableEq, Repr

/-- Construction of a `Quote`: all field and model validators. -/
def mkQuote (symbol : Str) (timestamp : DateTime) (bid ask bid_size ask_size : ℚ) :
    Option Quote :=
  match normalizeSymbolField symbol with
  | none => none
  | some nsym =>
    if !quoteTimestampOk timestamp then none
    else if bid ≤ 0 ∨ ask ≤ 0 then none
    else if bid_size < 0 ∨ ask_size < 0 then none
    else if ask < bid then none
    else some ⟨nsym, timestamp, bid, ask, bid_size, ask_size⟩

/-- `Quote.mid`. -/
def Quote.mid (q : Quote) : ℚ := (q.bid + q.ask) / 2

/-- `Quote.spread`. -/
def Quote.spread (q : Quote) : ℚ := q.ask - q.bid

/-- `Quote.spread_bps`. -/
def Quote.spread_bps (q : Quote) : ℚ :=
  if q.mid = 0 then 0 else q.spread / q.mid * 10000

/-- `liq.core.position.Position` (field set). -/
structure Position where
  symbol : Str
  quantity : ℚ
  average_price : ℚ
  realized_pnl : ℚ
  timestamp : DateTime
  current_price : Option ℚ
  asset_class : Option AssetClass
  avg_entry_price : Option ℚ
deriving DecidableEq, Repr

/-- Construction of a `Position`: all field validators
(`sync_avg_entry_price` is an identity pass in the source). -/
def mkPosition (symbol : Str) (quantity average_price realized_pnl : ℚ)
    (timestamp : DateTime) (current_price : Option ℚ)
    (asset_class : Option AssetClass) (avg_entry_price : Option ℚ) :
    Option Position :=
  match normalizeSymbolField symbol with
  | none => none
  | some nsym =>
    if !positionTimestampOk timestamp then none
    else if average_price < 0 then none
    else if (match current_price with
             | some cp => decide (cp < 0)
             | none => false) then none
    else some ⟨nsym, quantity, average_price, realized_pnl, timestamp,
               current_price, asset_class, avg_entry_price⟩

/-- `Position.market_value`: `quantity * mark_price`, where the mark price is
`current_price` when it is set and `average_price` otherwise. -/
def Position.market_value (p : Position) : ℚ :=
  let mark_price := match p.current_price with
    | some cp => cp
    | none => p.average_price
  p.quantity * mark_price

/-- `Position.unrealized_pnl`. -/
def Position.unrealized_pnl (p : Position) (current_price : ℚ) : ℚ :=
  (current_price - p.average_price) * p.quantity

/-- `liq.core.fill.Fill` (field set; UUIDs modelled as numbers). -/
structure Fill where
  fill_id : Nat
  client_order_id : Nat
  symbol : Str
  side : OrderSide
  quantity : ℚ
  price : ℚ
  commission : ℚ
  slippage : Option ℚ
  realized_pnl : Option ℚ
  provider : Option Str
  is_partial : Option Bool
  timestamp : DateTime
deriving DecidableEq, Repr

/-- Construction of a `Fill`: all field validators. -/
def mkFill (fill_id client_order_id : Nat) (symbol : Str) (side : OrderSide)
    (quantity price commission : ℚ) (slippage realized_pnl : Option ℚ)
    (provider : Option Str) ( is_partial : Option Bool) (timestamp : DateTime) :
    Option Fill :=
  match normalizeSymbolField symbol with
  | none => none
  | some nsym =>
    if !fillTimestampOk timestamp then none
    else if quantity ≤ 0 then none
    else if price ≤ 0 then none
    else if commission < 0 then none
    else some ⟨fill_id, client_order_id, nsym, side, quantity, price,
               commission, slippage, realized_pnl, provider, is_partial,
               timestamp⟩

/-- `Fill.notional_value`. -/
def Fill.notional_value (f : Fill) : ℚ := f.quantity * f.price

/-- `Fill.total_cost`: `notional + commission` for a buy,
`-notional + commission` for a sell. -/
def Fill.total_cost (f : Fill) : ℚ :=
  if f.side = OrderSide.buy then f.notional_value + f.commission
  else -f.notional_value + f.commission

/-- `liq.core.order.OrderRequest` (field set; `tags`/`metadata` are opaque
unvalidated payloads). -/
structure OrderRequest where
  client_order_id : Nat
  symbol : Str
  side : OrderSide
  order_type : OrderType
  quantity : ℚ
  limit_price : Option ℚ
  stop_price : Option ℚ
  time_in_force : TimeInForce
  timestamp : DateTime
  strategy_id : Option Str
  confidence : Option ℚ
deriving DecidableEq, Repr

/-- Construction of an `OrderRequest`: field validators plus the
`validate_price_requirements` model validator keyed on `order_type`. -/
def mkOrderRequest (client_order_id : Nat) (symbol : Str) (side : OrderSide)
    (order_type : OrderType) (quantity : ℚ) (limit_price stop_price : Option ℚ)
    (time_in_force : TimeInForce) (timestamp : DateTime)
    (strategy_id : Option Str) (confidence : Option ℚ) : Option OrderRequest :=
  match normalizeSymbolField symbol with
  | none => none
  | some nsym =>
    if !orderTimestampOk timestamp then none
    else if quantity ≤ 0 then none
    else if (match limit_price with
             | some lp => decide (lp ≤ 0)
             | none => false) then none
    else if (match stop_price with
             | some sp => decide (sp ≤ 0)
             | none => false) then none
    else if (match confidence with
             | some c => decide (c < 0 ∨ 1 < c)
             | none => false) then none
    else if order_type = OrderType.limit ∧ limit_price = none then none
    else if order_type = OrderType.stop ∧ stop_price = none then none
    else if order_type = OrderType.stop_limit ∧
        (limit_price = none ∨ stop_price = none) then none
    else some ⟨client_order_id, nsym, side, order_type, quantity, limit_price,
               stop_price, time_in_force, timestamp, strategy_id, confidence⟩

/-- `liq.core.bar.Bar` (field set; `open_` embeds the Python field `open`,
which is a reserved word in Lean). -/
structure Bar where
  timestamp : DateTime
  symbol : Str
  open_ : ℚ
  high : ℚ
  low : ℚ
  close : ℚ
  volume : ℚ
deriving DecidableEq, Repr

/-- Construction of a `Bar`: field validators plus the OHLC model validator. -/
def mkBar (timestamp : DateTime) (symbol : Str) (open_ high low close volume : ℚ) :
    Option Bar :=
  match normalizeSymbolField symbol with
  | none => none
  | some nsym =>
    if !barTimestampOk timestamp then none
    else if open_ ≤ 0 ∨ high ≤ 0 ∨ low ≤ 0 ∨ close ≤ 0 then none
    else if volume < 0 then none
    else if high < low then none
    else if high < open_ then none
    else if high < close then none
    else if low > open_ then none
    else if low > close then none
    else some ⟨timestamp, nsym, open_, high, low, close, volume⟩

section Dict

variable {α : Type}

/-- First-match association lookup (`dict[k]` / `dict.get(k)`; keys in a
Python dict are unique, so first match is the only match). -/
def lookupA : List (Str × α) → Str → Option α
  | [], _ => none
  | p :: rest, k => if p.1 = k then some p.2 else lookupA rest k

/-- `k in dict`. -/
def containsKey (d : List (Str × α)) (k : Str) : Bool := (lookupA d k).isSome

/-- `dict[k] = v`: replaces the value in place when the key is present
(keeping its insertion-order slot), otherwise appends the new pair. -/
def dictInsert (d : List (Str × α)) (k : Str) (v : α) : List (Str × α) :=
  if containsKey d k then d.map (fun p => if p.1 = k then (p.1, v) else p)
  else d ++ [(k, v)]

end Dict

/-- `liq.core.portfolio.PortfolioState` (field set); the `positions` dict is
modelled as an insertion-ordered association list with unique keys. -/
structure PortfolioState where
  cash : ℚ
  unsettled_cash : ℚ
  positions : List (Str × Position)
  realized_pnl : ℚ
  buying_power : Option ℚ
  margin_used : Option ℚ
  day_trades_remaining : Option Int
  timestamp : DateTime
deriving DecidableEq, Repr

/-- `PortfolioState.normalize_position_keys` (a `mode="before"` validator):
trims and uppercases every key, fails when a normalized key is not canonical,
and rebuilds the dict entry by entry. -/
def normalize_position_keys (v : List (Str × Position)) :
    Option (List (Str × Position)) :=
  v.foldl
    (fun acc kv =>
      acc.bind (fun d =>
        let normalized_symbol := upper (strip kv.1)
        if validate_symbol normalized_symbol then
          some (dictInsert d normalized_symbol kv.2)
        else none))
    (some [])

/-- Construction of a `PortfolioState`: key normalization plus the timestamp
validator. -/
def mkPortfolioState (cash unsettled_cash : ℚ)
    (positions : List (Str × Position)) (realized_pnl : ℚ)
    (buying_power margin_used : Option ℚ) (day_trades_remaining : Option Int)
    (timestamp : DateTime) : Option PortfolioState :=
  match normalize_position_keys positions with
  | none => none
  | some d =>
    if !portfolioTimestampOk timestamp then none
    else some ⟨cash, unsettled_cash, d, realized_pnl, buying_power,
               margin_used, day_trades_remaining, timestamp⟩

/-- `PortfolioState.position_count`. -/
def PortfolioState.position_count (ps : PortfolioState) : Nat :=
  ps.positions.length

/-- `PortfolioState.total_unrealized_pnl`: iterates the held positions,
looking each symbol up in the supplied price mapping; a missing key raises
`KeyError`, modelled as `none` (no partial sum escapes). -/
def PortfolioState.total_unrealized_pnl (ps : PortfolioState)
    (current_prices : List (Str × ℚ)) : Option ℚ :=
  ps.positions.foldl
    (fun acc kv =>
      acc.bind (fun total =>
        (lookupA current_prices kv.1).map
          (fun current_price => total + kv.2.unrealized_pnl current_price)))
    (some 0)

/-- `liq.core.cash_movement.CashMovement` (field set). -/
structure CashMovement where
  timestamp : DateTime
  amount : ℚ
  currency : Currency
  movement_type : Str
  description : Option Str
deriving DecidableEq, Repr

/-- `liq.core.corporate_action.CorporateAction` (field set). -/
structure CorporateAction where
  symbol : Str
  ex_date : DateTime
  action_type : Str
  ratio : Option ℚ
  amount : Option ℚ
deriving DecidableEq, Repr

/-- Entry-type tag "fill". -/
def etFill : Str := strCodes "fill"

/-- Entry-type tag "cash". -/
def etCash : Str := strCodes "cash"

/-- Entry-type tag "corporate_action". -/
def etCorporateAction : Str := strCodes "corporate_action"

/-- Entry-type tag "margin_call". -/
def etMarginCall : Str := strCodes "margin_call"

/-- The pattern `^(fill|cash|corporate_action|margin_call)$` on `entry_type`. -/
def entryTypeOk (s : Str) : Bool :=
  s == etFill || s == etCash || s == etCorporateAction || s == etMarginCall

/-- `liq.core.ledger.LedgerEntry` (field set). -/
structure LedgerEntry where
  timestamp : DateTime
  entry_type : Str
  fill : Option Fill
  cash_movement : Option CashMovement
  corporate_action : Option CorporateAction
  portfolio_state_after : Option PortfolioState
deriving DecidableEq

/-- Construction of a `LedgerEntry`: timestamp validator, `entry_type`
pattern, and the payload requirements of `validate_conditionals` /
`validate_required_payloads` (each tag demands its own payload; `margin_call`
demands none). -/
def mkLedgerEntry (timestamp : DateTime) (entry_type : Str)
    (fill : Option Fill) (cash_movement : Option CashMovement)
    (corporate_action : Option CorporateAction)
    (portfolio_state_after : Option PortfolioState) : Option LedgerEntry :=
  if !ledgerTimestampOk timestamp then none
  else if !entryTypeOk entry_type then none
  else if entry_type = etFill ∧ fill = none then none
  else if entry_type = etCash ∧ cash_movement = none then none
  else if entry_type = etCorporateAction ∧ corporate_action = none then none
  else some ⟨timestamp, entry_type, fill, cash_movement, corporate_action,
             portfolio_state_after⟩

/-- `liq.core.results.FetchResult` (field set). -/
structure FetchResult where
  symbol : Str
  success : Bool
  count : Option Int
  error : Option Str
deriving DecidableEq, Repr

/-- `FetchResult.__post_init__`: `count` is required on success, `error` is
required on failure. -/
def mkFetchResult (symbol : Str) (success : Bool) (count : Option Int)
    (error : Option Str) : Option FetchResult :=
  if success ∧ count = none then none
  else if ¬success ∧ error = none then none
  else some ⟨symbol, success, count, error⟩

/-- `liq.core.results.UpdateResult` (field set). -/
structure UpdateResult where
  symbol : Str
  success : Bool
  gaps_filled : Option Int
  total_rows : Option Int
  error : Option Str
deriving DecidableEq, Repr

/-- `UpdateResult.__post_init__`: `gaps_filled` and `total_rows` are required
on success, `error` is required on failure. -/
def mkUpdateResult (symbol : Str) (success : Bool)
    (gaps_filled total_rows : Option Int) (error : Option Str) :
    Option UpdateResult :=
  if success ∧ gaps_filled = none then none
  else if success ∧ total_rows = none then none
  else if ¬success ∧ error = none then none
  else some ⟨symbol, success, gaps_filled, total_rows, error⟩

/-! ## Shared sample values -/

/-- A timezone-aware UTC timestamp. -/
def utcTs : DateTime := ⟨0, some 0⟩

/-- A sample valid `Fill`. -/
def sampleFill : Fill :=
  ⟨0, 0, strCodes "EUR_USD", OrderSide.buy, 1, 1, 0, none, none, none, none, utcTs⟩

/-! ## Claims -/

/-- C1, counterexample: a `FetchResult` with `success=True` and a non-`None`
`error` constructs successfully (so does an `UpdateResult` with
`success=False` carrying the success-fields), contradicting the claim that
such constructions fail and that `error` is `None` on every success. -/
theorem C1_counterexample :
    mkFetchResult (strCodes "EUR_USD") true (some 5000)
        (some (strCodes "stale")) =
      some ⟨strCodes "EUR_USD", true, some 5000, some (strCodes "stale")⟩ ∧
    mkUpdateResult (strCodes "EUR_USD") false (some 3) (some 50000)
        (some (strCodes "boom")) =
      some ⟨strCodes "EUR_USD", false, some 3, some 50000,
            some (strCodes "boom")⟩ := by
  decide

/-- C1, amended: construction of a `FetchResult` fails exactly when
`success=True` and `count` is absent, or `success=False` and `error` is
absent; an `UpdateResult` likewise with `gaps_filled`/`total_rows`. The
complementary fields are not checked: a success may carry an `error` and a
failure may carry success-fields. -/
theorem C1_result_presence_only :
    ∀ (s : Str) (b : Bool) (c gf tr : Option Int) (e : Option Str),
      (mkFetchResult s b c e).isSome =
        ((!b || c.isSome) && (b || e.isSome)) ∧
      (mkUpdateResult s b gf tr e).isSome =
        ((!b || (gf.isSome && tr.isSome)) && (b || e.isSome)) := by
  intro s b c gf tr e
  cases b <;> cases c <;> cases gf <;> cases tr <;> cases e <;>
    simp [mkFetchResult, mkUpdateResult]

/-- C2, counterexample: a `LedgerEntry` with `entry_type = "margin_call"` and
a non-null `fill` payload constructs successfully, contradicting the claimed
"payload non-null iff matching tag" invariant. -/
theorem C2_counterexample :
    mkLedgerEntry utcTs etMarginCall (some sampleFill) none none none =
      some ⟨utcTs, etMarginCall, some sampleFill, none, none, none⟩ := by
  decide

/-- C2, amended: construction of a `LedgerEntry` enforces only the forward
direction of the tagged-union invariant — a valid tag demands its own payload
(`fill` for `"fill"`, `cash_movement` for `"cash"`, `corporate_action` for
`"corporate_action"`, nothing for `"margin_call"`) — while payload fields not
matching the tag may be non-null. -/
theorem C2_ledger_payload_requirements :
    ∀ (ts : DateTime) (et : Str) (f : Option Fill) (cm : Option CashMovement)
      (ca : Option CorporateAction) (psa : Option PortfolioState),
      (mkLedgerEntry ts et f cm ca psa).isSome =
        (ledgerTimestampOk ts && entryTypeOk et &&
         (!(et == etFill) || f.isSome) &&
         (!(et == etCash) || cm.isSome) &&
         (!(et == etCorporateAction) || ca.isSome)) := by
  intro ts et f cm ca psa
  unfold mkLedgerEntry
  cases hts : ledgerTimestampOk ts <;>
    cases het : entryTypeOk et <;>
      cases f <;> cases cm <;> cases ca <;>
        simp_all [beq_iff_eq] <;>
          by_cases h1 : et = etFill <;>
            by_cases h2 : et = etCash <;>
              by_cases h3 : et = etCorporateAction <;>
                simp_all [etFill, etCash, etCorporateAction, strCodes]

/-- C3: for every successfully constructed `Position`, `market_value` is the
signed product of `quantity` and the mark price (`current_price` when set,
else `average_price`); with negative quantity and positive mark price the
market value is negative. -/
theorem C3_market_value_signed :
    ∀ (symbol : Str) (q ap rp : ℚ) (ts : DateTime) (cp : Option ℚ)
      (ac : Option AssetClass) (aep : Option ℚ) (p : Position),
      mkPosition symbol q ap rp ts cp ac aep = some p →
      p.market_value = p.quantity * p.current_price.getD p.average_price ∧
      (p.quantity < 0 → 0 < p.current_price.getD p.average_price →
        p.market_value < 0) := by
  intro symbol q ap rp ts cp ac aep p _
  constructor
  · unfold Position.market_value
    cases p.current_price <;> rfl
  · intro hq hm
    have hv : p.market_value = p.quantity * p.current_price.getD p.average_price := by
      unfold Position.market_value
      cases p.current_price <;> rfl
    rw [hv]
    exact mul_neg_of_neg_of_pos hq hm

/-- A sample short `Position` with a positive current price. -/
def posShort : Position :=
  ⟨strCodes "EUR_USD", -2, 1, 0, utcTs, some 3, none, none⟩

/-- Witness for C3 at a concrete short position: the constructor succeeds and
the market value is negative. -/
theorem C3_witness : posShort.market_value < 0 :=
  (C3_market_value_signed (strCodes "EUR_USD") (-2) 1 0 utcTs (some 3) none
      none posShort (by decide)).2 (by decide) (by decide)

/-- A sample `Fill` matching the spec scenario: SELL 10000 at 1.1000 with
commission 0.50. -/
def fillSell : Fill :=
  ⟨1, 2, strCodes "EUR_USD", OrderSide.sell, 10000, 1.1, 0.5, none, none,
   none, none, utcTs⟩

/-- C5: `notional_value = quantity * price`; `total_cost` adds the commission
to the notional for a buy and to the negated notional for a sell; the spec
scenario fill (SELL 10000 @ 1.1000, commission 0.50) constructs successfully
and has `total_cost = -10999.50`. -/
theorem C5_total_cost :
    (∀ f : Fill, f.notional_value = f.quantity * f.price) ∧
    (∀ f : Fill, f.total_cost =
      match f.side with
      | OrderSide.buy => f.quantity * f.price + f.commission
      | OrderSide.sell => -(f.quantity * f.price) + f.commission) ∧
    mkFill 1 2 (strCodes "EUR_USD") OrderSide.sell 10000 1.1 0.5 none none
        none none utcTs = some fillSell ∧
    fillSell.total_cost = -10999.5 := by
  have hsym : normalizeSymbolField (strCodes "EUR_USD") =
      some (strCodes "EUR_USD") := by decide
  refine ⟨fun f => rfl, fun f => ?_, ?_, ?_⟩
  · unfold Fill.total_cost Fill.notional_value
    cases h : f.side <;> simp [h]
  · simp only [mkFill, hsym, fillTimestampOk, utcTs]
    norm_num [fillSell]
    rfl
  · simp only [Fill.total_cost, Fill.notional_value, fillSell]
    norm_num [show ¬(OrderSide.sell = OrderSide.buy) from by decide]

/-- C9: the timestamp validators of `Quote`, `Position`, `Fill` and
`OrderRequest` accept every timezone-aware timestamp, whatever its offset,
while `Bar`'s validator additionally requires the offset to be zero; at the
concrete offset +09:00 (32400 s) the four constructors succeed while `Bar`'s
fails (and succeeds at offset 0). -/
theorem C9_timezone_validators :
    (∀ (ep off : Int),
      quoteTimestampOk ⟨ep, some off⟩ = true ∧
      positionTimestampOk ⟨ep, some off⟩ = true ∧
      fillTimestampOk ⟨ep, some off⟩ = true ∧
      orderTimestampOk ⟨ep, some off⟩ = true ∧
      barTimestampOk ⟨ep, some off⟩ = (off == 0)) ∧
    (mkQuote (strCodes "EUR_USD") ⟨0, some 32400⟩ 1 2 0 0).isSome = true ∧
    (mkPosition (strCodes "EUR_USD") 1 1 0 ⟨0, some 32400⟩ none none
        none).isSome = true ∧
    (mkFill 1 2 (strCodes "EUR_USD") OrderSide.buy 1 1 0 none none none none
        ⟨0, some 32400⟩).isSome = true ∧
    (mkOrderRequest 1 (strCodes "EUR_USD") OrderSide.buy OrderType.market 1
        none none TimeInForce.day ⟨0, some 32400⟩ none none).isSome = true ∧
    (mkBar ⟨0, some 32400⟩ (strCodes "EUR_USD") 1 1 1 1 0).isSome = false ∧
    (mkBar ⟨0, some 0⟩ (strCodes "EUR_USD") 1 1 1 1 0).isSome = true := by
  refine ⟨?_, by decide, by decide, by decide, by decide, by decide, by decide⟩
  intro ep off
  simp [quoteTimestampOk, positionTimestampOk, fillTimestampOk,
    orderTimestampOk, barTimestampOk]

/-- C10: every successfully constructed `Quote` has a strictly positive mid
price, so the `mid == 0` guard in `spread_bps` is never taken and
`spread_bps` always equals `(spread / mid) * 10000`. -/
theorem C10_spread_bps_guard :
    ∀ (symbol : Str) (ts : DateTime) (bid ask bs asz : ℚ) (q : Quote),
      mkQuote symbol ts bid ask bs asz = some q →
      0 < q.mid ∧ q.spread_bps = q.spread / q.mid * 10000 := by
  intro symbol ts bid ask bs asz q h
  unfold mkQuote at h
  cases hn : normalizeSymbolField symbol <;> rw [hn] at h
  · simp at h
  · split at h
    · simp at h
    · split at h
      · simp at h
      · split at h
        next hpos => simp at h
        next hpos =>
          split at h
          · simp at h
          · split at h
            next hsp => simp at h
            next hsp =>
              injection h with h
              subst h
              push_neg at hpos
              have h1 := hpos.1
              have h2 := hpos.2
              have hmid : 0 < (bid + ask) / 2 := by positivity
              simp only [Quote.mid, Quote.spread_bps, Quote.spread]
              exact ⟨hmid, if_neg (ne_of_gt hmid)⟩

/-- A sample valid `Quote`. -/
def quoteSample : Quote := ⟨strCodes "EUR_USD", utcTs, 1, 2, 0, 0⟩

/-- Witness for C10 at a concrete quote. -/
theorem C10_witness :
    0 < quoteSample.mid ∧
    quoteSample.spread_bps = quoteSample.spread / quoteSample.mid * 10000 :=
  C10_spread_bps_guard (strCodes "EUR_USD") utcTs 1 2 0 0 quoteSample
    (by decide)

/-- One loop step of `total_unrealized_pnl`. -/
def pnlStep (current_prices : List (Str × ℚ)) (acc : Option ℚ)
    (kv : Str × Position) : Option ℚ :=
  acc.bind (fun total =>
    (lookupA current_prices kv.1).map
      (fun current_price => total + kv.2.unrealized_pnl current_price))

theorem total_unrealized_pnl_eq_foldl (ps : PortfolioState)
    (current_prices : List (Str × ℚ)) :
    ps.total_unrealized_pnl current_prices =
      ps.positions.foldl (pnlStep current_prices) (some 0) := rfl

theorem pnlStep_foldl_none (current_prices : List (Str × ℚ))
    (l : List (Str × Position)) :
    l.foldl (pnlStep current_prices) none = none := by
  induction l with
  | nil => rfl
  | cons kv rest ih => simpa [pnlStep] using ih

theorem pnlStep_foldl_all_present (current_prices : List (Str × ℚ))
    (l : List (Str × Position))
    (hall : ∀ kv ∈ l, (lookupA current_prices kv.1).isSome = true) :
    ∀ t : ℚ, l.foldl (pnlStep current_prices) (some t) =
      some (t + (l.map
        (fun kv => kv.2.unrealized_pnl
          ((lookupA current_prices kv.1).getD 0))).sum) := by
  induction l with
  | nil => intro t; simp
  | cons kv rest ih =>
    intro t
    have hkv : (lookupA current_prices kv.1).isSome = true :=
      hall kv (List.mem_cons_self kv rest)
    obtain ⟨cp, hcp⟩ := Option.isSome_iff_exists.mp hkv
    have hrest : ∀ kv ∈ rest, (lookupA current_prices kv.1).isSome = true :=
      fun kv h => hall kv (List.mem_cons_of_mem _ h)
    simp only [List.foldl_cons, pnlStep, Option.bind_eq_bind, Option.some_bind,
      hcp, Option.map_some, Option.map_some']
    rw [ih hrest]
    simp [hcp, List.map_cons, List.sum_cons]
    ring

theorem pnlStep_foldl_missing (current_prices : List (Str × ℚ))
    (l : List (Str × Position))
    (hmiss : ∃ kv ∈ l, lookupA current_prices kv.1 = none) :
    ∀ acc : Option ℚ, l.foldl (pnlStep current_prices) acc = none := by
  induction l with
  | nil => simp at hmiss
  | cons kv rest ih =>
    intro acc
    rcases hmiss with ⟨kv', hmem, hnone⟩
    rcases List.mem_cons.mp hmem with heq | hmem'
    · subst heq
      have hstep : pnlStep current_prices acc kv' = none := by
        cases acc <;> simp [pnlStep, hnone]
      simp only [List.foldl_cons, hstep]
      exact pnlStep_foldl_none current_prices rest
    · exact ih ⟨kv', hmem', hnone⟩ _

/-- C7: `total_unrealized_pnl` returns the sum over all held positions of
`unrealized_pnl` at the supplied price when every held symbol has a price,
and fails (no partial sum) when some held symbol is missing from the price
mapping. -/
theorem C7_total_unrealized_pnl :
    ∀ (ps : PortfolioState) (current_prices : List (Str × ℚ)),
      ((∀ kv ∈ ps.positions, (lookupA current_prices kv.1).isSome = true) →
        ps.total_unrealized_pnl current_prices =
          some ((ps.positions.map
            (fun kv => kv.2.unrealized_pnl
              ((lookupA current_prices kv.1).getD 0))).sum)) ∧
      ((∃ kv ∈ ps.positions, lookupA current_prices kv.1 = none) →
        ps.total_unrealized_pnl current_prices = none) := by
  intro ps current_prices
  constructor
  · intro hall
    rw [total_unrealized_pnl_eq_foldl,
      pnlStep_foldl_all_present current_prices ps.positions hall 0, zero_add]
  · intro hmiss
    rw [total_unrealized_pnl_eq_foldl,
      pnlStep_foldl_missing current_prices ps.positions hmiss]

/-- A sample portfolio holding a single short EUR_USD position. -/
def psSample : PortfolioState :=
  ⟨0, 0, [(strCodes "EUR_USD", posShort)], 0, none, none, none, utcTs⟩

/-- Witness for C7 at a concrete portfolio: with the price supplied the sum
is produced, with an empty price mapping the computation fails. -/
theorem C7_witness :
    psSample.total_unrealized_pnl [(strCodes "EUR_USD", 2)] =
      some ((psSample.positions.map
        (fun kv => kv.2.unrealized_pnl
          ((lookupA [(strCodes "EUR_USD", 2)] kv.1).getD 0))).sum) ∧
    psSample.total_unrealized_pnl [] = none :=
  ⟨(C7_total_unrealized_pnl psSample [(strCodes "EUR_USD", 2)]).1
      (by decide),
   (C7_total_unrealized_pnl psSample []).2
      ⟨(strCodes "EUR_USD", posShort), by decide, by decide⟩⟩

section DictLemmas

variable {α : Type}

theorem lookupA_map_replace_ne (d : List (Str × α)) (k : Str) (v : α)
    (k' : Str) (hne : k' ≠ k) :
    lookupA (d.map (fun p => if p.1 = k then (p.1, v) else p)) k' =
      lookupA d k' := by
  induction d with
  | nil => rfl
  | cons p t ih =>
    by_cases hp : p.1 = k
    · simp only [List.map_cons, if_pos hp, lookupA]
      rw [if_neg (by rw [hp]; exact fun h => hne h.symm), ih]
      rw [if_neg (by rw [hp]; exact fun h => hne h.symm)]
    · simp only [List.map_cons, if_neg hp, lookupA, ih]

theorem lookupA_map_replace (d : List (Str × α)) (k : Str) (v : α) (k' : Str)
    (hc : containsKey d k = true) :
    lookupA (d.map (fun p => if p.1 = k then (p.1, v) else p)) k' =
      if k' = k then some v else lookupA d k' := by
  induction d with
  | nil => simp [containsKey, lookupA] at hc
  | cons p t ih =>
    by_cases hp : p.1 = k
    · by_cases hk : k' = k
      · subst hk
        simp [lookupA, hp]
      · simp [lookupA, hp, hk, Ne.symm hk, lookupA_map_replace_ne t k v k' hk,
          show ¬p.1 = k' from by rw [hp]; exact fun h => hk h.symm]
    · have hct : containsKey t k = true := by
        simpa [containsKey, lookupA, hp] using hc
      by_cases hpk : p.1 = k'
      · have hk : ¬k' = k := fun h => hp (by rw [hpk, h])
        simp [lookupA, hp, hpk, hk]
      · simp [lookupA, hp, hpk, ih hct]

theorem lookupA_append_single (d : List (Str × α)) (k : Str) (v : α)
    (k' : Str) (hc : containsKey d k = false) :
    lookupA (d ++ [(k, v)]) k' = if k' = k then some v else lookupA d k' := by
  induction d with
  | nil =>
    by_cases hk : k' = k
    · simp [lookupA, hk]
    · simp [lookupA, hk, Ne.symm hk]
  | cons p t ih =>
    by_cases hp : p.1 = k'
    · have hpk : ¬p.1 = k := by
        intro h
        simp [containsKey, lookupA, if_pos h] at hc
      rw [if_neg (fun h => hpk (hp.trans h))]
      simp [lookupA, hp]
    · have hct : containsKey t k = false := by
        by_cases hq : p.1 = k
        · simp [containsKey, lookupA, if_pos hq] at hc
        · simpa [containsKey, lookupA, if_neg hq] using hc
      simp [lookupA, hp, ih hct]

theorem lookupA_dictInsert (d : List (Str × α)) (k : Str) (v : α) (k' : Str) :
    lookupA (dictInsert d k v) k' = if k' = k then some v else lookupA d k' := by
  unfold dictInsert
  by_cases hc : containsKey d k = true
  · rw [if_pos hc]
    exact lookupA_map_replace d k v k' hc
  · rw [if_neg hc]
    exact lookupA_append_single d k v k' (Bool.eq_false_iff.mpr hc)

theorem containsKey_dictInsert_self (d : List (Str × α)) (k : Str) (v : α) :
    containsKey (dictInsert d k v) k = true := by
  simp [containsKey, lookupA_dictInsert]

theorem containsKey_dictInsert_mono (d : List (Str × α)) (k k' : Str) (v : α)
    (h : containsKey d k' = true) :
    containsKey (dictInsert d k v) k' = true := by
  simp only [containsKey, lookupA_dictInsert]
  by_cases hk : k' = k
  · simp [hk]
  · simpa [hk] using h

theorem length_dictInsert (d : List (Str × α)) (k : Str) (v : α) :
    (dictInsert d k v).length =
      if containsKey d k then d.length else d.length + 1 := by
  unfold dictInsert
  by_cases hc : containsKey d k = true <;> simp [hc]

/-- The key-normalizing insertion step of `normalize_position_keys` on an
already-validated pair. -/
def keyStep (d : List (Str × α)) (kv : Str × α) : List (Str × α) :=
  dictInsert d (upper (strip kv.1)) kv.2

/-- One `Option`-level step of `normalize_position_keys`. -/
def npkStep (acc : Option (List (Str × α))) (kv : Str × α) :
    Option (List (Str × α)) :=
  acc.bind (fun d =>
    let normalized_symbol := upper (strip kv.1)
    if validate_symbol normalized_symbol then
      some (dictInsert d normalized_symbol kv.2)
    else none)

theorem npk_fold_eq (l : List (Str × α)) :
    ∀ d, (∀ kv ∈ l, validate_symbol (upper (strip kv.1)) = true) →
      l.foldl npkStep (some d) = some (l.foldl keyStep d) := by
  induction l with
  | nil => intro d _; rfl
  | cons a t ih =>
    intro d hall
    have ha : validate_symbol (upper (strip a.1)) = true :=
      hall a (List.mem_cons_self a t)
    have hstep : npkStep (some d) a = some (keyStep d a) := by
      simp [npkStep, keyStep, ha]
    simp only [List.foldl_cons, hstep]
    exact ih _ (fun kv h => hall kv (List.mem_cons_of_mem _ h))

theorem foldl_keyStep_length_le (l : List (Str × α)) :
    ∀ d : List (Str × α), (l.foldl keyStep d).length ≤ d.length + l.length := by
  induction l with
  | nil => intro d; simp
  | cons a t ih =>
    intro d
    have hd : (keyStep d a).length ≤ d.length + 1 := by
      unfold keyStep
      rw [length_dictInsert]
      split <;> omega
    have := ih (keyStep d a)
    simp only [List.foldl_cons, List.length_cons]
    omega

theorem foldl_keyStep_length_lt_of_mem (l : List (Str × α)) :
    ∀ (d : List (Str × α)) (k : Str), containsKey d k = true →
      k ∈ l.map (fun kv => upper (strip kv.1)) →
      (l.foldl keyStep d).length < d.length + l.length := by
  induction l with
  | nil => intro d k _ hmem; simp at hmem
  | cons a t ih =>
    intro d k hc hmem
    simp only [List.map_cons, List.mem_cons] at hmem
    rcases hmem with heq | hmem'
    · subst heq
      have hlen : (keyStep d a).length = d.length := by
        unfold keyStep
        rw [length_dictInsert, if_pos hc]
      have := foldl_keyStep_length_le t (keyStep d a)
      simp only [List.foldl_cons, List.length_cons]
      omega
    · have hc' : containsKey (keyStep d a) k = true :=
        containsKey_dictInsert_mono d _ k a.2 hc
      have hd : (keyStep d a).length ≤ d.length + 1 := by
        unfold keyStep
        rw [length_dictInsert]
        split <;> omega
      have := ih (keyStep d a) k hc' hmem'
      simp only [List.foldl_cons, List.length_cons]
      omega

theorem foldl_keyStep_length_lt_of_dup (l : List (Str × α)) :
    ∀ d : List (Str × α), ¬(l.map (fun kv => upper (strip kv.1))).Nodup →
      (l.foldl keyStep d).length < d.length + l.length := by
  induction l with
  | nil => intro d hdup; simp at hdup
  | cons a t ih =>
    intro d hdup
    by_cases hmem : upper (strip a.1) ∈ t.map (fun kv => upper (strip kv.1))
    · have hc : containsKey (keyStep d a) (upper (strip a.1)) = true :=
        containsKey_dictInsert_self d _ a.2
      have hd : (keyStep d a).length ≤ d.length + 1 := by
        unfold keyStep
        rw [length_dictInsert]
        split <;> omega
      have := foldl_keyStep_length_lt_of_mem t (keyStep d a) _ hc hmem
      simp only [List.foldl_cons, List.length_cons]
      omega
    · have hdt : ¬(t.map (fun kv => upper (strip kv.1))).Nodup := by
        intro hnd
        exact hdup (by simp [List.nodup_cons, hmem, hnd])
      have hd : (keyStep d a).length ≤ d.length + 1 := by
        unfold keyStep
        rw [length_dictInsert]
        split <;> omega
      have := ih (keyStep d a) hdt
      simp only [List.foldl_cons, List.length_cons]
      omega

end DictLemmas

theorem normalize_position_keys_eq_foldl (l : List (Str × Position)) :
    normalize_position_keys l = l.foldl npkStep (some []) := rfl

/-- C8: two distinct raw keys normalizing to the same canonical symbol do not
fail `PortfolioState` construction; the rebuilt mapping has a single entry
for that symbol bound to the later key's `Position`, and in general any
duplicate normalized key makes the rebuilt mapping strictly shorter than the
input key list. -/
theorem C8_duplicate_position_keys :
    (∀ (k1 k2 : Str) (p1 p2 : Position),
      k1 ≠ k2 → upper (strip k1) = upper (strip k2) →
      validate_symbol (upper (strip k1)) = true →
      normalize_position_keys [(k1, p1), (k2, p2)] =
        some [(upper (strip k1), p2)] ∧
      ∃ ps, mkPortfolioState 0 0 [(k1, p1), (k2, p2)] 0 none none none utcTs
          = some ps ∧
        ps.positions = [(upper (strip k1), p2)] ∧ ps.position_count = 1) ∧
    (∀ l : List (Str × Position),
      (∀ kv ∈ l, validate_symbol (upper (strip kv.1)) = true) →
      ¬(l.map (fun kv => upper (strip kv.1))).Nodup →
      ∃ d, normalize_position_keys l = some d ∧ d.length < l.length) := by
  constructor
  · intro k1 k2 p1 p2 _ hkey hval
    have hnpk : normalize_position_keys [(k1, p1), (k2, p2)] =
        some [(upper (strip k1), p2)] := by
      unfold normalize_position_keys
      simp only [List.foldl_cons, List.foldl_nil, Option.bind_eq_bind,
        Option.some_bind]
      rw [← hkey]
      simp [dictInsert, containsKey, lookupA, hval]
    refine ⟨hnpk, ⟨0, 0, [(upper (strip k1), p2)], 0, none, none, none,
      utcTs⟩, ?_, rfl, rfl⟩
    unfold mkPortfolioState
    rw [hnpk]
    rfl
  · intro l hall hdup
    refine ⟨l.foldl keyStep [], ?_, ?_⟩
    · rw [normalize_position_keys_eq_foldl]
      exact npk_fold_eq l [] hall
    · simpa using foldl_keyStep_length_lt_of_dup l [] hdup

/-- A second sample position, distinguishable from `posShort`. -/
def posLong : Position :=
  ⟨strCodes "EUR_USD", 5, 2, 0, utcTs, none, none, none⟩

/-- Witness for C8: the raw keys `"eur_usd"` and `"EUR_USD"` collide after
normalization; construction succeeds keeping the later position only. -/
theorem C8_witness :
    normalize_position_keys
        [(strCodes "eur_usd", posShort), (strCodes "EUR_USD", posLong)] =
      some [(upper (strip (strCodes "eur_usd")), posLong)] ∧
    ∃ ps, mkPortfolioState 0 0
        [(strCodes "eur_usd", posShort), (strCodes "EUR_USD", posLong)]
        0 none none none utcTs = some ps ∧
      ps.positions = [(upper (strip (strCodes "eur_usd")), posLong)] ∧
      ps.position_count = 1 :=
  (C8_duplicate_position_keys.1 (strCodes "eur_usd") (strCodes "EUR_USD")
    posShort posLong (by decide) (by decide) (by decide))

/-- The spec's description of the crypto quote-suffix search: the first quote
currency, in the given order (longest first), that is a suffix of the symbol
and leaves a non-empty base. -/
def quoteSuffixMatch (s : Str) : Option Str :=
  cryptoQuotes.find? (fun q => q.isSuffixOf s && decide (q.length < s.length))

theorem cryptoSplit_eq_find (s : Str) : ∀ qs : List Str,
    cryptoSplit s qs =
      (qs.find? (fun q => q.isSuffixOf s && decide (q.length < s.length))).map
        (fun q => s.take (s.length - q.length) ++ [45] ++ q) := by
  intro qs
  induction qs with
  | nil => rfl
  | cons q rest ih =>
    by_cases hs : q.isSuffixOf s = true
    · by_cases hl : q.length < s.length
      · have hbase : s.take (s.length - q.length) ≠ [] := by
          intro hnil
          rcases List.take_eq_nil_iff.mp hnil with h | h
          · omega
          · rw [h] at hl
            simp at hl
        simp [cryptoSplit, hs, hl, hbase, List.find?]
      · have hsuf : q <:+ s := List.isSuffixOf_iff_suffix.mp hs
        have hle : q.length ≤ s.length := hsuf.length_le
        have hz : s.length - q.length = 0 := by omega
        have hbase : s.take (s.length - q.length) = [] := by
          rw [hz]
          rfl
        simp [cryptoSplit, hs, hl, hbase, List.find?, ih]
    · simp [cryptoSplit, hs, List.find?, ih]

theorem dashified_eq_self_of_no_dash (s : Str)
    (h : (dashified s).contains 45 = false) : dashified s = s := by
  induction s with
  | nil => rfl
  | cons c t ih =>
    simp only [dashified, List.map_cons, List.contains_cons,
      Bool.or_eq_false_iff] at h
    rcases h with ⟨hhead, htail⟩
    have hc : ¬c = 95 := by
      intro hc
      rw [if_pos hc] at hhead
      simp at hhead
    have ht : dashified t = t := ih htail
    simp only [dashified, List.map_cons] at ht ⊢
    rw [if_neg hc, ht]

/-- C4: `normalize_symbol` on CRYPTO first trims, uppercases and strips the
text before a ':' and then applies the crypto rule, which (1) returns the
underscore-to-hyphen replaced string as-is when it contains a hyphen,
(2) otherwise splits `base-quote` on the first quote currency of the ordered
list that matches as a suffix leaving a non-empty base, (3) else falls back
to a 3/rest split when the length is at least 6, and (4) else returns the
string unchanged; in particular `"BINANCE:btcusdt"` normalizes to
`"BTC-USDT"`. -/
theorem C4_normalize_crypto :
    (∀ s : Str, normalize_symbol s AssetClass.crypto =
        normalizeCrypto (preprocessSymbol s)) ∧
    (∀ s : Str, (dashified s).contains 45 = true →
        normalizeCrypto s = dashified s) ∧
    (∀ s q : Str, (dashified s).contains 45 = false →
        quoteSuffixMatch (dashified s) = some q →
        normalizeCrypto s =
          (dashified s).take ((dashified s).length - q.length) ++ [45] ++ q) ∧
    (∀ s : Str, (dashified s).contains 45 = false →
        quoteSuffixMatch (dashified s) = none → 6 ≤ (dashified s).length →
        normalizeCrypto s =
          (dashified s).take 3 ++ [45] ++ (dashified s).drop 3) ∧
    (∀ s : Str, (dashified s).contains 45 = false →
        quoteSuffixMatch (dashified s) = none → (dashified s).length < 6 →
        normalizeCrypto s = s) ∧
    normalize_symbol (strCodes "BINANCE:btcusdt") AssetClass.crypto =
      strCodes "BTC-USDT" := by
  refine ⟨fun s => rfl, fun s h => ?_, fun s q h hq => ?_, fun s h hq hlen => ?_,
    fun s h hq hlen => ?_, by decide⟩
  · simp only [normalizeCrypto]
    rw [if_pos h]
  · have hsplit : cryptoSplit (dashified s) cryptoQuotes =
        some ((dashified s).take ((dashified s).length - q.length) ++ [45] ++ q) := by
      rw [cryptoSplit_eq_find]
      rw [show (cryptoQuotes.find? (fun p =>
          p.isSuffixOf (dashified s) && decide (p.length < (dashified s).length)))
        = quoteSuffixMatch (dashified s) from rfl, hq]
      rfl
    simp only [normalizeCrypto]
    rw [if_neg (by rw [h]; simp), hsplit]
  · have hsplit : cryptoSplit (dashified s) cryptoQuotes = none := by
      rw [cryptoSplit_eq_find]
      rw [show (cryptoQuotes.find? (fun p =>
          p.isSuffixOf (dashified s) && decide (p.length < (dashified s).length)))
        = quoteSuffixMatch (dashified s) from rfl, hq]
      rfl
    simp only [normalizeCrypto]
    rw [if_neg (by rw [h]; simp), hsplit, if_pos hlen]
  · have hsplit : cryptoSplit (dashified s) cryptoQuotes = none := by
      rw [cryptoSplit_eq_find]
      rw [show (cryptoQuotes.find? (fun p =>
          p.isSuffixOf (dashified s) && decide (p.length < (dashified s).length)))
        = quoteSuffixMatch (dashified s) from rfl, hq]
      rfl
    simp only [normalizeCrypto]
    rw [if_neg (by rw [h]; simp), hsplit, if_neg (by omega)]
    exact dashified_eq_self_of_no_dash s h

/-- Witness for C4: each branch of the crypto rule at a concrete symbol. -/
theorem C4_witness :
    normalizeCrypto (strCodes "BTC_USD") = dashified (strCodes "BTC_USD") ∧
    normalizeCrypto (strCodes "ETHUSDT") =
      (dashified (strCodes "ETHUSDT")).take
          ((dashified (strCodes "ETHUSDT")).length -
            (strCodes "USDT").length) ++ [45] ++ strCodes "USDT" ∧
    normalizeCrypto (strCodes "ABCDEZ") =
      (dashified (strCodes "ABCDEZ")).take 3 ++ [45] ++
        (dashified (strCodes "ABCDEZ")).drop 3 ∧
    normalizeCrypto (strCodes "AB") = strCodes "AB" :=
  ⟨C4_normalize_crypto.2.1 (strCodes "BTC_USD") (by decide),
   C4_normalize_crypto.2.2.1 (strCodes "ETHUSDT") (strCodes "USDT")
     (by decide) (by decide),
   C4_normalize_crypto.2.2.2.1 (strCodes "ABCDEZ") (by decide) (by decide)
     (by decide),
   C4_normalize_crypto.2.2.2.2.1 (strCodes "AB") (by decide) (by decide)
     (by decide)⟩

/-! ### Character-level facts for the idempotence analysis -/

theorem upperCode_idem (c : Nat) : upperCode (upperCode c) = upperCode c := by
  by_cases h : 97 ≤ c ∧ c ≤ 122
  · have h1 : upperCode c = c - 32 := by
      unfold upperCode
      rw [if_pos (by simpa using h)]
    rw [h1]
    unfold upperCode
    rw [if_neg (by simp; omega)]
  · have h1 : upperCode c = c := by
      unfold upperCode
      rw [if_neg (by simpa using h)]
    rw [h1]
    exact h1

theorem upper_upper (s : Str) : upper (upper s) = upper s := by
  unfold upper
  rw [List.map_map]
  exact List.map_congr_left (fun a _ => upperCode_idem a)

theorem upper_eq_self_of_forall (u : Str) (h : ∀ c ∈ u, upperCode c = c) :
    upper u = u :=
  (List.map_congr_left h).trans (List.map_id u)

theorem forall_of_upper_eq_self (u : Str) (h : upper u = u) :
    ∀ c ∈ u, upperCode c = c := by
  induction u with
  | nil => intro c hc; cases hc
  | cons a t ih =>
    simp only [upper, List.map_cons, List.cons.injEq] at h
    intro c hc
    rcases List.mem_cons.mp hc with rfl | hc'
    · exact h.1
    · exact ih h.2 c hc'

theorem contains_false_iff (u : Str) (a : Nat) : u.contains a = false ↔ a ∉ u := by
  simp

/-! ### Trimming facts -/

theorem lstrip_map_comm (f : Nat → Nat)
    (hspace : ∀ c, isSpaceCode (f c) = isSpaceCode c) (u : Str) :
    lstrip (u.map f) = (lstrip u).map f := by
  unfold lstrip
  rw [List.dropWhile_map]
  have hpred : (isSpaceCode ∘ f) = isSpaceCode := funext hspace
  rw [hpred]

theorem rstrip_map_comm (f : Nat → Nat)
    (hspace : ∀ c, isSpaceCode (f c) = isSpaceCode c) (u : Str) :
    rstrip (u.map f) = (rstrip u).map f := by
  unfold rstrip
  rw [← List.map_reverse, List.dropWhile_map]
  have hpred : (isSpaceCode ∘ f) = isSpaceCode := funext hspace
  rw [hpred, List.map_reverse]

theorem strip_map_comm (f : Nat → Nat)
    (hspace : ∀ c, isSpaceCode (f c) = isSpaceCode c) (u : Str) :
    strip (u.map f) = (strip u).map f := by
  unfold strip
  rw [lstrip_map_comm f hspace, rstrip_map_comm f hspace]

theorem lstrip_eq_self_of_head (u : Str)
    (h : ∀ c, u.head? = some c → isSpaceCode c = false) : lstrip u = u := by
  cases u with
  | nil => rfl
  | cons a t =>
    unfold lstrip
    rw [List.dropWhile_cons, if_neg (by simp [h a rfl])]

theorem rstrip_eq_self_of_last (u : Str)
    (h : ∀ c, u.getLast? = some c → isSpaceCode c = false) : rstrip u = u := by
  unfold rstrip
  have hrw : u.reverse.dropWhile isSpaceCode = u.reverse := by
    cases hrev : u.reverse with
    | nil => rfl
    | cons a t =>
      have hla : u.getLast? = some a := by
        rw [← List.head?_reverse, hrev]
        rfl
      rw [List.dropWhile_cons, if_neg (by simp [h a hla])]
  rw [hrw, List.reverse_reverse]

theorem strip_eq_self_of_edges (u : Str)
    (hh : ∀ c, u.head? = some c → isSpaceCode c = false)
    (hl : ∀ c, u.getLast? = some c → isSpaceCode c = false) : strip u = u := by
  unfold strip
  rw [lstrip_eq_self_of_head u hh, rstrip_eq_self_of_last u hl]

theorem head_no_space_of_strip (u : Str) (h : strip u = u) :
    ∀ c, u.head? = some c → isSpaceCode c = false := by
  intro c hc
  by_contra hsp
  rw [Bool.not_eq_false] at hsp
  cases u with
  | nil => cases hc
  | cons a t =>
    have ha : a = c := Option.some.inj hc
    subst ha
    have hlen1 : (lstrip (a :: t)).length ≤ t.length := by
      unfold lstrip
      rw [List.dropWhile_cons, if_pos hsp]
      exact (List.dropWhile_suffix _).length_le
    have hlen2 : (strip (a :: t)).length ≤ (lstrip (a :: t)).length := by
      unfold strip rstrip
      simp only [List.length_reverse]
      have := (List.dropWhile_suffix (l := (lstrip (a :: t)).reverse)
        isSpaceCode).length_le
      simpa using this
    have hlen3 : (strip (a :: t)).length = t.length + 1 := by
      rw [h]
      rfl
    omega

theorem last_no_space_of_strip (u : Str) (h : strip u = u) :
    ∀ c, u.getLast? = some c → isSpaceCode c = false := by
  intro c hc
  by_contra hsp
  rw [Bool.not_eq_false] at hsp
  by_cases hl : lstrip u = []
  · have hu : u = [] := by
      rw [← h]
      unfold strip
      rw [hl]
      rfl
    rw [hu] at hc
    cases hc
  · have hsuf : lstrip u <:+ u := List.dropWhile_suffix _
    obtain ⟨w, hw⟩ := hsuf
    have hlast : (lstrip u).getLast? = some c := by
      have happ := List.getLast?_append_of_ne_nil w hl
      rw [hw] at happ
      exact happ.symm.trans hc
    have hrev : (lstrip u).reverse.head? = some c := by
      rw [List.head?_reverse, hlast]
    cases hrv : (lstrip u).reverse with
    | nil =>
      rw [hrv] at hrev
      cases hrev
    | cons a t =>
      have ha : a = c := by
        rw [hrv] at hrev
        exact Option.some.inj hrev
      subst ha
      have hshort : (rstrip (lstrip u)).length ≤ t.length := by
        unfold rstrip
        rw [hrv, List.dropWhile_cons, if_pos hsp]
        simp only [List.length_reverse]
        exact (List.dropWhile_suffix _).length_le
      have hvlen : (lstrip u).length = t.length + 1 := by
        rw [← List.length_reverse, hrv]
        rfl
      have hvle : (lstrip u).length ≤ u.length :=
        (List.dropWhile_suffix _).length_le
      have hstrip : (strip u).length = u.length := by rw [h]
      have hstrip' : strip u = rstrip (lstrip u) := rfl
      rw [hstrip'] at hstrip
      omega

/-! ### Cleanliness: trimmed, uppercase, colon-free strings -/

/-- A string already in the post-preprocessing normal form: trimming changes
nothing, uppercasing changes nothing, and it contains no colon. -/
def Clean (u : Str) : Prop :=
  strip u = u ∧ upper u = u ∧ u.contains 58 = false

theorem Clean.map (u : Str) (hc : Clean u) (f : Nat → Nat)
    (hspace : ∀ c, isSpaceCode (f c) = isSpaceCode c)
    (hupper : ∀ c, upperCode c = c → upperCode (f c) = f c)
    (hcolon : ∀ c, c ≠ 58 → f c ≠ 58) : Clean (u.map f) := by
  obtain ⟨hs, hu, hn⟩ := hc
  refine ⟨by rw [strip_map_comm f hspace, hs], ?_, ?_⟩
  · apply upper_eq_self_of_forall
    intro c hcm
    rcases List.mem_map.mp hcm with ⟨c', hc', rfl⟩
    exact hupper c' (forall_of_upper_eq_self u hu c' hc')
  · rw [contains_false_iff]
    intro hmem
    rcases List.mem_map.mp hmem with ⟨c', hc', heq⟩
    exact hcolon c' (fun he => (contains_false_iff u 58).mp hn (he ▸ hc')) heq

theorem head?_take (u : Str) (n : Nat) (hn : 0 < n) :
    (u.take n).head? = u.head? := by
  cases u with
  | nil => simp
  | cons a t =>
    cases n with
    | zero => omega
    | succ m => rfl

theorem getLast?_suffix (u v : Str) (h : v <:+ u) (hne : v ≠ []) :
    v.getLast? = u.getLast? := by
  obtain ⟨w, rfl⟩ := h
  exact (List.getLast?_append_of_ne_nil w hne).symm

/-- Cleanliness of a string assembled as `a ++ [sep] ++ b` from pieces of a
clean string `u`, where `a` starts like `u`, `b` ends like `u`, and `sep` is
a separator that is not whitespace, lowercase, or a colon. -/
theorem clean_glue (u a b : Str) (sep : Nat) (hc : Clean u)
    (ha_ne : a ≠ []) (hb_ne : b ≠ [])
    (ha_head : a.head? = u.head?) (hb_last : b.getLast? = u.getLast?)
    (ha_mem : ∀ c ∈ a, c ∈ u) (hb_mem : ∀ c ∈ b, c ∈ u)
    (hsep_space : isSpaceCode sep = false)
    (hsep_upper : upperCode sep = sep)
    (hsep_colon : sep ≠ 58) :
    Clean (a ++ [sep] ++ b) := by
  obtain ⟨hs, hu, hn⟩ := hc
  refine ⟨?_, ?_, ?_⟩
  · apply strip_eq_self_of_edges
    · intro c hcm
      rw [List.append_assoc, List.head?_append_of_ne_nil _ ha_ne, ha_head]
        at hcm
      exact head_no_space_of_strip u hs c hcm
    · intro c hcm
      rw [List.getLast?_append_of_ne_nil _ hb_ne, hb_last] at hcm
      exact last_no_space_of_strip u hs c hcm
  · apply upper_eq_self_of_forall
    intro c hcm
    simp only [List.append_assoc, List.mem_append, List.mem_cons,
      List.not_mem_nil, or_false] at hcm
    rcases hcm with hca | rfl | hcb
    · exact forall_of_upper_eq_self u hu c (ha_mem c hca)
    · exact hsep_upper
    · exact forall_of_upper_eq_self u hu c (hb_mem c hcb)
  · rw [contains_false_iff]
    intro hmem
    simp only [List.append_assoc, List.mem_append, List.mem_cons,
      List.not_mem_nil, or_false] at hmem
    rcases hmem with hca | heq | hcb
    · exact (contains_false_iff u 58).mp hn (ha_mem 58 hca)
    · exact hsep_colon heq.symm
    · exact (contains_false_iff u 58).mp hn (hb_mem 58 hcb)

theorem afterColon_subset (v : Str) : ∀ c ∈ afterColon v, c ∈ v := by
  intro c hc
  unfold afterColon at hc
  rw [List.mem_reverse] at hc
  have := (List.takeWhile_prefix (l := v.reverse)
    (fun c => decide (c ≠ 58))).sublist.subset hc
  rwa [List.mem_reverse] at this

theorem afterColon_no_colon (v : Str) : ∀ c ∈ afterColon v, c ≠ 58 := by
  intro c hc
  unfold afterColon at hc
  rw [List.mem_reverse] at hc
  have := List.mem_takeWhile_imp hc
  simpa using this

theorem preprocessSymbol_eq (s : Str) :
    preprocessSymbol s =
      if (upper (strip s)).contains 58 then afterColon (upper (strip s))
      else upper (strip s) := rfl

theorem clean_preprocess (s : Str)
    (h : strip (preprocessSymbol s) = preprocessSymbol s) :
    Clean (preprocessSymbol s) := by
  refine ⟨h, ?_, ?_⟩
  · rw [preprocessSymbol_eq]
    by_cases hcol : (upper (strip s)).contains 58 = true
    · rw [if_pos hcol]
      apply upper_eq_self_of_forall
      intro c hc
      exact forall_of_upper_eq_self _ (upper_upper (strip s)) c
        (afterColon_subset _ c hc)
    · rw [if_neg hcol]
      exact upper_upper (strip s)
  · rw [preprocessSymbol_eq]
    by_cases hcol : (upper (strip s)).contains 58 = true
    · rw [if_pos hcol, contains_false_iff]
      intro hmem
      exact afterColon_no_colon _ 58 hmem rfl
    · rw [if_neg hcol]
      exact Bool.not_eq_true _ ▸ hcol

theorem preprocess_of_clean (u : Str) (hc : Clean u) : preprocessSymbol u = u := by
  obtain ⟨hs, hu, hn⟩ := hc
  rw [preprocessSymbol_eq, hs, hu, hn]
  simp

/-! ### Cleanliness is preserved by the per-asset-class rules -/

theorem clean_underscored (u : Str) (hc : Clean u) : Clean (underscored u) := by
  apply Clean.map u hc
  · intro c
    by_cases h : c = 47 ∨ c = 45
    · rw [if_pos (by simpa using h)]
      rcases h with rfl | rfl <;> decide
    · rw [if_neg (by simpa using h)]
  · intro c hcu
    by_cases h : c = 47 ∨ c = 45
    · rw [if_pos (by simpa using h)]
      decide
    · rw [if_neg (by simpa using h)]
      exact hcu
  · intro c hc58
    by_cases h : c = 47 ∨ c = 45
    · rw [if_pos (by simpa using h)]
      decide
    · rw [if_neg (by simpa using h)]
      exact hc58

theorem clean_dashified (u : Str) (hc : Clean u) : Clean (dashified u) := by
  apply Clean.map u hc
  · intro c
    by_cases h : c = 95
    · rw [if_pos h, h]
      decide
    · rw [if_neg h]
  · intro c hcu
    by_cases h : c = 95
    · rw [if_pos h]
      decide
    · rw [if_neg h]
      exact hcu
  · intro c hc58
    by_cases h : c = 95
    · rw [if_pos h]
      decide
    · rw [if_neg h]
      exact hc58

theorem normalizeForex_eq (u : Str) :
    normalizeForex u =
      if (!(underscored u).contains 95) && (underscored u).length == 6 then
        (underscored u).take 3 ++ [95] ++ (underscored u).drop 3
      else underscored u := rfl

theorem clean_normalizeForex (u : Str) (hc : Clean u) :
    Clean (normalizeForex u) := by
  have hcr : Clean (underscored u) := clean_underscored u hc
  rw [normalizeForex_eq]
  split
  next hcond =>
    have hlen : (underscored u).length = 6 := by
      simp only [Bool.and_eq_true, beq_iff_eq] at hcond
      exact hcond.2
    apply clean_glue (underscored u) _ _ 95 hcr
    · rw [Ne, List.take_eq_nil_iff]
      push_neg
      refine ⟨by omega, ?_⟩
      intro hnil
      rw [hnil] at hlen
      simp at hlen
    · rw [Ne, List.drop_eq_nil_iff]
      omega
    · apply head?_take
      omega
    · apply getLast?_suffix
      · exact List.drop_suffix 3 (underscored u)
      · rw [Ne, List.drop_eq_nil_iff]
        omega
    · exact fun c hcm => List.mem_of_mem_take hcm
    · exact fun c hcm => (List.drop_suffix 3 _).sublist.subset hcm
    · decide
    · decide
    · decide
  next => exact hcr

theorem cryptoQuotes_ne_nil : ∀ q ∈ cryptoQuotes, q ≠ [] := by decide

theorem normalizeCrypto_eq (u : Str) :
    normalizeCrypto u =
      if (dashified u).contains 45 then dashified u
      else
        match cryptoSplit (dashified u) cryptoQuotes with
        | some r => r
        | none =>
          if 6 ≤ (dashified u).length then
            (dashified u).take 3 ++ [45] ++ (dashified u).drop 3
          else dashified u := rfl

theorem clean_normalizeCrypto (u : Str) (hc : Clean u) :
    Clean (normalizeCrypto u) := by
  have hcd : Clean (dashified u) := clean_dashified u hc
  rw [normalizeCrypto_eq]
  split
  next => exact hcd
  next hnod =>
    cases hfind : cryptoSplit (dashified u) cryptoQuotes with
    | some r =>
      rw [cryptoSplit_eq_find] at hfind
      cases hq : cryptoQuotes.find? (fun q =>
          q.isSuffixOf (dashified u) && decide (q.length < (dashified u).length)) with
      | none =>
        rw [hq] at hfind
        cases hfind
      | some q =>
        rw [hq] at hfind
        have hcond := List.find?_some hq
        simp only [Bool.and_eq_true, decide_eq_true_eq] at hcond
        have hsuf : q <:+ dashified u := List.isSuffixOf_iff_suffix.mp hcond.1
        have hql : q.length < (dashified u).length := hcond.2
        have hqne : q ≠ [] :=
          cryptoQuotes_ne_nil q (List.mem_of_find?_eq_some hq)
        simp only [Option.map_some, Option.map_some', Option.some.injEq]
          at hfind
        rw [← hfind]
        apply clean_glue (dashified u) _ _ 45 hcd
        · rw [Ne, List.take_eq_nil_iff]
          push_neg
          refine ⟨by omega, ?_⟩
          intro hnil
          rw [hnil] at hql
          simp at hql
        · exact hqne
        · apply head?_take
          omega
        · exact getLast?_suffix _ q hsuf hqne
        · exact fun c hcm => List.mem_of_mem_take hcm
        · exact fun c hcm => hsuf.sublist.subset hcm
        · decide
        · decide
        · decide
    | none =>
      split
      next hnone => exact Option.noConfusion hnone
      next =>
      split
      next hlen =>
        apply clean_glue (dashified u) _ _ 45 hcd
        · rw [Ne, List.take_eq_nil_iff]
          push_neg
          refine ⟨by omega, ?_⟩
          intro hnil
          rw [hnil] at hlen
          simp at hlen
        · rw [Ne, List.drop_eq_nil_iff]
          omega
        · apply head?_take
          omega
        · apply getLast?_suffix
          · exact List.drop_suffix 3 (dashified u)
          · rw [Ne, List.drop_eq_nil_iff]
            omega
        · exact fun c hcm => List.mem_of_mem_take hcm
        · exact fun c hcm => (List.drop_suffix 3 _).sublist.subset hcm
        · decide
        · decide
        · decide
      next => exact hcd

/-! ### The per-asset-class rules are idempotent outright -/

theorem underscored_chars (u : Str) : ∀ c ∈ underscored u, ¬(c = 47 ∨ c = 45) := by
  intro c hc
  rcases List.mem_map.mp hc with ⟨c', _, rfl⟩
  by_cases h : c' = 47 ∨ c' = 45
  · rw [if_pos (by simpa using h)]
    decide
  · rw [if_neg (by simpa using h)]
    exact h

theorem underscored_of_chars (v : Str) (h : ∀ c ∈ v, ¬(c = 47 ∨ c = 45)) :
    underscored v = v := by
  unfold underscored
  refine (List.map_congr_left ?_).trans (List.map_id v)
  intro c hc
  rw [if_neg (by simpa using h c hc)]
  rfl

theorem underscored_underscored (u : Str) :
    underscored (underscored u) = underscored u :=
  underscored_of_chars _ (underscored_chars u)

theorem dashified_chars (u : Str) : ∀ c ∈ dashified u, c ≠ 95 := by
  intro c hc
  rcases List.mem_map.mp hc with ⟨c', _, rfl⟩
  by_cases h : c' = 95
  · rw [if_pos h]
    decide
  · rw [if_neg h]
    exact h

theorem dashified_of_chars (v : Str) (h : ∀ c ∈ v, c ≠ 95) :
    dashified v = v := by
  unfold dashified
  refine (List.map_congr_left ?_).trans (List.map_id v)
  intro c hc
  rw [if_neg (h c hc)]
  rfl

theorem dashified_dashified (u : Str) :
    dashified (dashified u) = dashified u :=
  dashified_of_chars _ (dashified_chars u)

theorem normalizeForex_idem (u : Str) :
    normalizeForex (normalizeForex u) = normalizeForex u := by
  rw [normalizeForex_eq u]
  split
  next hcond =>
    have hw : underscored
        ((underscored u).take 3 ++ [95] ++ (underscored u).drop 3) =
        (underscored u).take 3 ++ [95] ++ (underscored u).drop 3 := by
      apply underscored_of_chars
      intro c hcm
      simp only [List.append_assoc, List.mem_append, List.mem_cons,
        List.not_mem_nil, or_false] at hcm
      rcases hcm with hca | rfl | hcb
      · exact underscored_chars u c (List.mem_of_mem_take hca)
      · decide
      · exact underscored_chars u c ((List.drop_suffix 3 _).sublist.subset hcb)
    have hcont : ((underscored u).take 3 ++ [95] ++
        (underscored u).drop 3).contains 95 = true := by
      simp
    rw [normalizeForex_eq, hw, if_neg (by simp [hcont])]
  next hcond =>
    rw [normalizeForex_eq, underscored_underscored, if_neg hcond]

theorem normalizeCrypto_idem (u : Str) :
    normalizeCrypto (normalizeCrypto u) = normalizeCrypto u := by
  rw [normalizeCrypto_eq u]
  split
  next hcond =>
    rw [normalizeCrypto_eq, dashified_dashified, if_pos hcond]
  next hcond =>
    cases hfind : cryptoSplit (dashified u) cryptoQuotes with
    | some r =>
      show normalizeCrypto r = r
      rw [cryptoSplit_eq_find] at hfind
      cases hq : cryptoQuotes.find? (fun q =>
          q.isSuffixOf (dashified u) &&
            decide (q.length < (dashified u).length)) with
      | none =>
        rw [hq] at hfind
        cases hfind
      | some q =>
        rw [hq] at hfind
        have hcond' := List.find?_some hq
        simp only [Bool.and_eq_true, decide_eq_true_eq] at hcond'
        have hsuf : q <:+ dashified u := List.isSuffixOf_iff_suffix.mp hcond'.1
        simp only [Option.map_some, Option.map_some', Option.some.injEq]
          at hfind
        have hdr : dashified r = r := by
          apply dashified_of_chars
          intro c hcm
          rw [← hfind] at hcm
          simp only [List.append_assoc, List.mem_append, List.mem_cons,
            List.not_mem_nil, or_false] at hcm
          rcases hcm with hca | rfl | hcb
          · exact dashified_chars u c (List.mem_of_mem_take hca)
          · decide
          · exact dashified_chars u c (hsuf.sublist.subset hcb)
        have hcont : r.contains 45 = true := by
          rw [← hfind]
          simp
        rw [normalizeCrypto_eq, hdr, if_pos hcont]
    | none =>
      split
      next hnone => exact Option.noConfusion hnone
      next =>
      split
      next hlen =>
        have hw : dashified
            ((dashified u).take 3 ++ [45] ++ (dashified u).drop 3) =
            (dashified u).take 3 ++ [45] ++ (dashified u).drop 3 := by
          apply dashified_of_chars
          intro c hcm
          simp only [List.append_assoc, List.mem_append, List.mem_cons,
            List.not_mem_nil, or_false] at hcm
          rcases hcm with hca | rfl | hcb
          · exact dashified_chars u c (List.mem_of_mem_take hca)
          · decide
          · exact dashified_chars u c ((List.drop_suffix 3 _).sublist.subset hcb)
        have hcont : ((dashified u).take 3 ++ [45] ++
            (dashified u).drop 3).contains 45 = true := by
          simp
        rw [normalizeCrypto_eq, hw, if_pos hcont]
      next hlen =>
        rw [normalizeCrypto_eq, dashified_dashified, if_neg hcond, hfind,
          if_neg hlen]

/-- C6, counterexample: `normalize_symbol` is not idempotent — for the raw
FOREX symbol `"AB: CD"` the first pass leaves the leading space that
survived the exchange-prefix split, while the second pass trims it. -/
theorem C6_counterexample :
    normalize_symbol (normalize_symbol (strCodes "AB: CD") AssetClass.forex)
        AssetClass.forex ≠
      normalize_symbol (strCodes "AB: CD") AssetClass.forex := by
  decide

/-- C6, amended: `normalize_symbol` is idempotent for every raw symbol whose
trimmed, uppercased, exchange-prefix-stripped form carries no leading or
trailing whitespace (whitespace can only survive right after the last ':'),
and every asset class. -/
theorem C6_idempotent_amended :
    ∀ (s : Str) (ac : AssetClass),
      strip (preprocessSymbol s) = preprocessSymbol s →
      normalize_symbol (normalize_symbol s ac) ac = normalize_symbol s ac := by
  intro s ac h
  have hc : Clean (preprocessSymbol s) := clean_preprocess s h
  cases ac with
  | forex =>
    show normalizeForex (preprocessSymbol (normalizeForex (preprocessSymbol s)))
      = normalizeForex (preprocessSymbol s)
    rw [preprocess_of_clean _ (clean_normalizeForex _ hc), normalizeForex_idem]
  | crypto =>
    show normalizeCrypto
        (preprocessSymbol (normalizeCrypto (preprocessSymbol s)))
      = normalizeCrypto (preprocessSymbol s)
    rw [preprocess_of_clean _ (clean_normalizeCrypto _ hc),
      normalizeCrypto_idem]
  | equity =>
    show preprocessSymbol (preprocessSymbol s) = preprocessSymbol s
    exact preprocess_of_clean _ hc
  | future =>
    show preprocessSymbol (preprocessSymbol s) = preprocessSymbol s
    exact preprocess_of_clean _ hc
  | option =>
    show preprocessSymbol (preprocessSymbol s) = preprocessSymbol s
    exact preprocess_of_clean _ hc

/-- Witness for the amended C6 at a concrete raw symbol with an exchange
prefix. -/
theorem C6_witness :
    normalize_symbol
        (normalize_symbol (strCodes "BINANCE:btcusdt") AssetClass.crypto)
        AssetClass.crypto =
      normalize_symbol (strCodes "BINANCE:btcusdt") AssetClass.crypto :=
  C6_idempotent_amended (strCodes "BINANCE:btcusdt") AssetClass.crypto
    (by decide)

end LiqCore
